import Mathlib

/-!
Verification of the daily-feed pipeline core (Go sources under internal/)
against its natural-language specification.

Shallow embedding conventions:
* Go strings are Lean `String` values; Go `len` (a byte count) is
  `String.utf8ByteSize`; where a function indexes into the raw bytes of a
  string (the Discord `truncate` helper) the string is modeled as its list
  of bytes (`List Nat`).
* Go errors are `Option String` / `Except String` values carrying the error
  text; a `nil` error is `none` / `.ok`.
* `time.Time` values are modeled as integer instants (`Int`);
  `t.After(u)` is `u < t`.
* `context.Context` cancellation is an oracle `doneDuring : Nat → Bool`
  telling whether the cancellation signal fires during the backoff wait
  that follows attempt number `k`; `ctxErr` is the cancellation reason
  returned by `ctx.Err()`.
* The operation passed to the retry wrapper is an oracle
  `op : Nat → Option String` giving the outcome of its k-th invocation
  (numbered from 0).
-/

namespace DailyFeed

/-! ## Go string helpers (strings.Contains, strings.ToLower) -/

/-- Whether the first character list is a prefix of the second. -/
def isPrefixOfL : List Char → List Char → Bool
  | [], _ => true
  | _ :: _, [] => false
  | a :: as, b :: bs => a == b && isPrefixOfL as bs

/-- Whether the pattern occurs as a contiguous run inside the second list
(the semantics of Go strings.Contains). -/
def containsL (pat : List Char) : List Char → Bool
  | [] => isPrefixOfL pat []
  | b :: rest => isPrefixOfL pat (b :: rest) || containsL pat rest

/-- Go strings.Contains on Lean strings. -/
def strContains (s pat : String) : Bool := containsL pat.data s.data

/-- Go strings.ToLower (character-wise lowering; the error texts the retry
classifier inspects are ASCII). -/
def lowerStr (s : String) : String := String.mk (s.data.map Char.toLower)

/-! ## internal/retry/retry.go -/

/-- Config holds retry configuration (retry.Config). MaxRetries is a Go
int used only in the range 0.., modeled as Nat; BaseDelay is a
time.Duration (int64 nanoseconds), modeled as Int since the sign matters. -/
structure Config where
  maxRetries : Nat
  baseDelay : Int
deriving DecidableEq

/-- The first group of substring checks of isRetryableError: network-level
error signals that are always retryable. -/
def hasNetworkSignal (errStr : String) : Bool :=
  strContains errStr "timeout" ||
  strContains errStr "connection refused" ||
  strContains errStr "connection reset" ||
  strContains errStr "temporary failure" ||
  strContains errStr "network"

/-- isRetryableError from internal/retry/retry.go: lowercases the error
text, then checks network signals, then "status 5" / "status 429"
(retryable), then "status 4" (not retryable), defaulting to retryable. -/
def isRetryableError : Option String → Bool
  | none => false
  | some msg =>
    let errStr := lowerStr msg
    if hasNetworkSignal errStr then true
    else if strContains errStr "status 5" || strContains errStr "status 429" then true
    else if strContains errStr "status 4" then false
    else true

/-- The observable outcome of WithBackoff. `exhausted` records the attempt
count printed in the wrapped error "operation failed after %d attempts";
`nonRetryable` is the "non-retryable error" wrapping; `cancelled` carries
ctx.Err(); `panicked` models the runtime fault raised by
rand.Int63n(int64(config.BaseDelay)) when BaseDelay <= 0. -/
inductive RetryOutcome where
  | ok : RetryOutcome
  | nonRetryable (err : String) : RetryOutcome
  | exhausted (attempts : Nat) (err : String) : RetryOutcome
  | cancelled (ctxErr : String) : RetryOutcome
  | panicked (msg : String) : RetryOutcome
deriving DecidableEq

/-- The message of the runtime fault of rand.Int63n on a non-positive bound. -/
def int63nPanicMsg : String := "invalid argument to Int63n"

/-- The loop body of WithBackoff. `attempt` is the loop counter, `fuel`
the remaining iterations (`cfg.maxRetries + 1 - attempt`). Returns the
outcome together with the number of invocations of the operation made and
the number of completed backoff waits. The `fuel = 0` case is the
unreachable `return nil` after the loop. -/
def withBackoffLoop (cfg : Config) (op : Nat → Option String)
    (doneDuring : Nat → Bool) (ctxErr : String) :
    Nat → Nat → RetryOutcome × Nat × Nat
  | _, 0 => (.ok, 0, 0)
  | attempt, fuel + 1 =>
    match op attempt with
    | none => (.ok, 1, 0)
    | some e =>
      if isRetryableError (some e) = false then (.nonRetryable e, 1, 0)
      else if attempt = cfg.maxRetries then (.exhausted (cfg.maxRetries + 1) e, 1, 0)
      else if cfg.baseDelay ≤ 0 then (.panicked int63nPanicMsg, 1, 0)
      else if doneDuring attempt then (.cancelled ctxErr, 1, 0)
      else
        let r := withBackoffLoop cfg op doneDuring ctxErr (attempt + 1) fuel
        (r.1, r.2.1 + 1, r.2.2 + 1)

/-- WithBackoff from internal/retry/retry.go, with explicit invocation and
wait counts. -/
def WithBackoff (cfg : Config) (op : Nat → Option String)
    (doneDuring : Nat → Bool) (ctxErr : String) : RetryOutcome × Nat × Nat :=
  withBackoffLoop cfg op doneDuring ctxErr 0 (cfg.maxRetries + 1)

/-! ## Retry loop lemmas -/

/-- If every invocation fails retryably and the base delay is positive,
the loop runs through all its fuel and exhausts. -/
theorem withBackoffLoop_all_retryable (cfg : Config) (op : Nat → Option String) (ctxErr : String)
    (hop : ∀ k, ∃ e, op k = some e ∧ isRetryableError (some e) = true)
    (hbd : 0 < cfg.baseDelay) :
    ∀ fuel attempt, attempt + fuel = cfg.maxRetries + 1 → 1 ≤ fuel →
      ∃ e, op cfg.maxRetries = some e ∧
        withBackoffLoop cfg op (fun _ => false) ctxErr attempt fuel =
          (.exhausted (cfg.maxRetries + 1) e, fuel, fuel - 1) := by
  intro fuel
  induction fuel with
  | zero => intro attempt _ h1; omega
  | succ f ih =>
    intro attempt hsum _
    obtain ⟨e, hoe, hre⟩ := hop attempt
    rcases Nat.eq_zero_or_pos f with hf0 | hfpos
    · subst hf0
      have ha : attempt = cfg.maxRetries := by omega
      subst ha
      exact ⟨e, hoe, by simp [withBackoffLoop, hoe, hre]⟩
    · have ha : attempt ≠ cfg.maxRetries := by omega
      have hb : ¬ cfg.baseDelay ≤ 0 := not_le.mpr hbd
      obtain ⟨e', h1, h2⟩ := ih (attempt + 1) (by omega) (by omega)
      refine ⟨e', h1, ?_⟩
      simp only [withBackoffLoop, hoe, hre, ha, hb, if_false, ite_false, if_neg, h2]
      simp [hre, ha, hb, h2]
      omega

/-- The loop never reaches the jitter computation when the base delay is
positive, hence never panics. -/
theorem withBackoffLoop_no_panic (cfg : Config) (op : Nat → Option String)
    (doneDuring : Nat → Bool) (ctxErr : String) (hbd : 0 < cfg.baseDelay) :
    ∀ fuel attempt m, (withBackoffLoop cfg op doneDuring ctxErr attempt fuel).1 ≠ .panicked m := by
  intro fuel
  induction fuel with
  | zero => intro attempt m; simp [withBackoffLoop]
  | succ f ih =>
    intro attempt m
    have hb : ¬ cfg.baseDelay ≤ 0 := not_le.mpr hbd
    cases hoe : op attempt with
    | none => simp [withBackoffLoop, hoe]
    | some e =>
      by_cases h1 : isRetryableError (some e) = false
      · simp [withBackoffLoop, hoe, h1]
      · by_cases h2 : attempt = cfg.maxRetries
        · subst h2
          simp [withBackoffLoop, hoe, h1]
        · by_cases h4 : doneDuring attempt
          · simp [withBackoffLoop, hoe, h1, h2, hb, h4]
          · simpa [withBackoffLoop, hoe, h1, h2, hb, h4] using ih (attempt + 1) m

/-- If every invocation up to index `attempt + k` fails retryably, the
cancellation signal stays quiet through the first `k` waits after
`attempt` and fires during the next one, the loop stops with the
cancellation reason after `k + 1` invocations. -/
theorem withBackoffLoop_cancel (cfg : Config) (op : Nat → Option String)
    (doneDuring : Nat → Bool) (ctxErr : String) (hbd : 0 < cfg.baseDelay) :
    ∀ k attempt fuel, attempt + fuel = cfg.maxRetries + 1 → attempt + k < cfg.maxRetries →
      (∀ j, j ≤ attempt + k → ∃ e, op j = some e ∧ isRetryableError (some e) = true) →
      (∀ j, attempt ≤ j → j < attempt + k → doneDuring j = false) →
      doneDuring (attempt + k) = true →
      withBackoffLoop cfg op doneDuring ctxErr attempt fuel = (.cancelled ctxErr, k + 1, k) := by
  have hb : ¬ cfg.baseDelay ≤ 0 := not_le.mpr hbd
  intro k
  induction k with
  | zero =>
    intro attempt fuel hsum hlt hop _ hfire
    obtain ⟨f, rfl⟩ : ∃ f, fuel = f + 1 := ⟨fuel - 1, by omega⟩
    obtain ⟨e, hoe, hre⟩ := hop attempt (by omega)
    have ha : attempt ≠ cfg.maxRetries := by omega
    have hd : doneDuring attempt = true := by simpa using hfire
    simp [withBackoffLoop, hoe, hre, ha, hb, hd]
  | succ k ih =>
    intro attempt fuel hsum hlt hop hquiet hfire
    obtain ⟨f, rfl⟩ : ∃ f, fuel = f + 1 := ⟨fuel - 1, by omega⟩
    obtain ⟨e, hoe, hre⟩ := hop attempt (by omega)
    have ha : attempt ≠ cfg.maxRetries := by omega
    have hd : doneDuring attempt = false := hquiet attempt (Nat.le_refl _) (by omega)
    have hrec := ih (attempt + 1) f (by omega) (by omega)
      (fun j hj => hop j (by omega))
      (fun j hj1 hj2 => hquiet j (by omega) (by omega))
      (by have : attempt + 1 + k = attempt + (k + 1) := by omega
          rw [this]; exact hfire)
    simp [withBackoffLoop, hoe, hre, ha, hb, hd, hrec]

/-! ## C1, C6, C7, C10 -/

/-- C1: with maxAttempts (MaxRetries) = N, an operation failing on every
invocation with a retryable error is invoked exactly N + 1 times and
WithBackoff returns the wrapped error naming N + 1 total attempts; an
operation failing non-retryably on its first invocation is invoked exactly
once, regardless of N, and the error is returned wrapped as non-retried;
N = 0 means exactly one invocation and no waiting. -/
theorem C1_withBackoff_attempt_counts (cfg : Config) (op : Nat → Option String)
    (doneDuring : Nat → Bool) (ctxErr : String) :
    ((∀ k, ∃ e, op k = some e ∧ isRetryableError (some e) = true) → 0 < cfg.baseDelay →
      ∃ e, op cfg.maxRetries = some e ∧
        WithBackoff cfg op (fun _ => false) ctxErr =
          (.exhausted (cfg.maxRetries + 1) e, cfg.maxRetries + 1, cfg.maxRetries))
    ∧ (∀ e, op 0 = some e → isRetryableError (some e) = false →
        WithBackoff cfg op doneDuring ctxErr = (.nonRetryable e, 1, 0))
    ∧ (cfg.maxRetries = 0 →
        (WithBackoff cfg op doneDuring ctxErr).2.1 = 1 ∧
        (WithBackoff cfg op doneDuring ctxErr).2.2 = 0) := by
  refine ⟨?_, ?_, ?_⟩
  · intro hop hbd
    obtain ⟨e, h1, h2⟩ :=
      withBackoffLoop_all_retryable cfg op ctxErr hop hbd (cfg.maxRetries + 1) 0
        (by omega) (by omega)
    exact ⟨e, h1, by simpa [WithBackoff] using h2⟩
  · intro e hoe hnr
    simp [WithBackoff, withBackoffLoop, hoe, hnr]
  · intro h0
    cases hoe : op 0 with
    | none => simp [WithBackoff, withBackoffLoop, hoe, h0]
    | some e =>
      cases hre : isRetryableError (some e) with
      | false => simp [WithBackoff, withBackoffLoop, hoe, hre, h0]
      | true => simp [WithBackoff, withBackoffLoop, hoe, hre, h0]

/-- C1 witness: MaxRetries = 2, a permanently failing retryable operation
is invoked 3 times and exhausts with attempt count 3. -/
theorem C1_witness :
    WithBackoff ⟨2, 1⟩ (fun _ => some "timeout") (fun _ => false) "context canceled" =
      (.exhausted 3 "timeout", 3, 2) := by
  obtain ⟨h1, -, -⟩ :=
    C1_withBackoff_attempt_counts ⟨2, 1⟩ (fun _ => some "timeout") (fun _ => false)
      "context canceled"
  obtain ⟨e, he, hres⟩ := h1 (fun k => ⟨"timeout", rfl, by decide⟩) (by decide)
  simp only [Option.some.injEq] at he
  subst he
  exact hres

/-- C6: the retry classifier returns true when the lowered error text
carries a network-level signal (timeout, connection refused / reset,
temporary failure, network), or an HTTP "status 5"/"status 429" marker;
it returns false when the only recognizable marker is "status 4" other
than 429; and it returns true when no marker is recognized at all. -/
theorem C6_retry_classifier (msg : String) :
    (hasNetworkSignal (lowerStr msg) = true → isRetryableError (some msg) = true)
    ∧ (strContains (lowerStr msg) "status 5" = true → isRetryableError (some msg) = true)
    ∧ (strContains (lowerStr msg) "status 429" = true → isRetryableError (some msg) = true)
    ∧ (strContains (lowerStr msg) "status 4" = true →
        strContains (lowerStr msg) "status 429" = false →
        hasNetworkSignal (lowerStr msg) = false →
        strContains (lowerStr msg) "status 5" = false →
        isRetryableError (some msg) = false)
    ∧ (hasNetworkSignal (lowerStr msg) = false →
        strContains (lowerStr msg) "status 5" = false →
        strContains (lowerStr msg) "status 429" = false →
        strContains (lowerStr msg) "status 4" = false →
        isRetryableError (some msg) = true) := by
  refine ⟨?_, ?_, ?_, ?_, ?_⟩
  · intro h; simp [isRetryableError, h]
  · intro h
    by_cases hn : hasNetworkSignal (lowerStr msg) = true
    · simp [isRetryableError, hn]
    · simp [isRetryableError, hn, h]
  · intro h
    by_cases hn : hasNetworkSignal (lowerStr msg) = true
    · simp [isRetryableError, hn]
    · simp [isRetryableError, hn, h]
  · intro h4 h429 hn h5
    simp [isRetryableError, hn, h5, h429, h4]
  · intro hn h5 h429 h4
    simp [isRetryableError, hn, h5, h429, h4]

/-- C6 witness: a connection-refused error is classified retryable; a
plain 404 status error is classified non-retryable. -/
theorem C6_witness :
    isRetryableError (some "connection refused") = true ∧
    isRetryableError (some "unexpected status 404") = false := by
  constructor
  · exact (C6_retry_classifier "connection refused").1 (by decide)
  · exact (C6_retry_classifier "unexpected status 404").2.2.2.1
      (by decide) (by decide) (by decide) (by decide)

/-- C7: if the operation keeps failing retryably and the cancellation
signal fires during the backoff wait that follows attempt k (having been
quiet before), WithBackoff stops the wait, returns the cancellation
reason rather than the operation error, and makes no further invocation:
exactly k + 1 invocations happen. -/
theorem C7_cancellation_during_wait (cfg : Config) (op : Nat → Option String)
    (doneDuring : Nat → Bool) (ctxErr : String) (k : Nat)
    (hk : k < cfg.maxRetries) (hbd : 0 < cfg.baseDelay)
    (hop : ∀ j, j ≤ k → ∃ e, op j = some e ∧ isRetryableError (some e) = true)
    (hquiet : ∀ j, j < k → doneDuring j = false)
    (hfire : doneDuring k = true) :
    WithBackoff cfg op doneDuring ctxErr = (.cancelled ctxErr, k + 1, k) := by
  have h := withBackoffLoop_cancel cfg op doneDuring ctxErr hbd k 0 (cfg.maxRetries + 1)
    (by omega) (by omega)
    (by intro j hj; exact hop j (by omega))
    (by intro j hj1 hj2; exact hquiet j (by omega))
    (by simpa using hfire)
  simpa [WithBackoff] using h

/-- C7 witness: MaxRetries = 3, failure on every attempt, cancellation
fires during the wait after attempt 1: the result is the cancellation
reason after exactly 2 invocations. -/
theorem C7_witness :
    WithBackoff ⟨3, 1⟩ (fun _ => some "timeout") (fun k => k == 1) "context canceled" =
      (.cancelled "context canceled", 2, 1) := by
  exact C7_cancellation_during_wait ⟨3, 1⟩ (fun _ => some "timeout") (fun k => k == 1)
    "context canceled" 1 (by decide) (by decide)
    (fun j _ => ⟨"timeout", rfl, by decide⟩)
    (by intro j hj; interval_cases j; decide) (by decide)

/-- C10: reaching a backoff wait with BaseDelay ≤ 0 makes the jitter call
rand.Int63n(int64(config.BaseDelay)) fault, so a retryable first failure
under MaxRetries ≥ 1 panics after a single invocation; conversely with
BaseDelay > 0 no execution of WithBackoff panics. -/
theorem C10_jitter_requires_positive_base_delay (cfg : Config) (op : Nat → Option String)
    (doneDuring : Nat → Bool) (ctxErr : String) :
    (∀ e, cfg.baseDelay ≤ 0 → 1 ≤ cfg.maxRetries → op 0 = some e →
        isRetryableError (some e) = true →
        WithBackoff cfg op doneDuring ctxErr = (.panicked int63nPanicMsg, 1, 0))
    ∧ (0 < cfg.baseDelay →
        ∀ m, (WithBackoff cfg op doneDuring ctxErr).1 ≠ .panicked m) := by
  constructor
  · intro e hbd hmr hoe hre
    have ha : (0 : Nat) ≠ cfg.maxRetries := by omega
    simp [WithBackoff, withBackoffLoop, hoe, hre, ha, hbd]
  · intro hbd m
    exact withBackoffLoop_no_panic cfg op doneDuring ctxErr hbd (cfg.maxRetries + 1) 0 m

/-- C10 witness: BaseDelay = 0 with MaxRetries = 1 and a retryable
failure panics after one invocation. -/
theorem C10_witness :
    WithBackoff ⟨1, 0⟩ (fun _ => some "timeout") (fun _ => false) "context canceled" =
      (.panicked int63nPanicMsg, 1, 0) := by
  exact (C10_jitter_requires_positive_base_delay ⟨1, 0⟩ (fun _ => some "timeout")
    (fun _ => false) "context canceled").1 "timeout" (by decide) (by decide) rfl (by decide)

/-! ## Data model (internal/fetcher/fetcher.go, internal/summarizer/summarizer.go) -/

/-- Paper represents a single academic publication (fetcher.Paper);
Published is a time.Time, modeled as an integer instant. -/
structure Paper where
  title : String
  authors : List String
  abstract : String
  url : String
  published : Int
  category : String
deriving DecidableEq

/-- PaperSummary holds a paper and its generated summary
(summarizer.PaperSummary). -/
structure PaperSummary where
  paper : Paper
  summary : String
  keyPoints : List String
deriving DecidableEq

/-- Digest is the final output of the summarization pipeline
(summarizer.Digest). -/
structure Digest where
  topic : String
  date : Int
  summaries : List PaperSummary
  overview : String
deriving DecidableEq

/-! ## internal/runner/runner.go -/

/-- The publish loop of Runner.Run: every publisher runs on the digest and
each failure message is appended to publishErrors, in order; a failure
never stops the loop. A publisher is modeled by the error it returns on a
given digest (none meaning success). -/
def collectPublishErrors (publishers : List (Digest → Option String)) (digest : Digest) :
    List String :=
  publishers.foldl (fun acc pub =>
    match pub digest with
    | some e => acc ++ [e]
    | none => acc) []

/-- Runner.Run: fetch, then summarize, then the publisher loop; returns
the run-level error, or none on success. The fetch collaborator is
modeled by its result and the summarize collaborator by its
result-on-papers function. -/
def runPipeline (fetchRes : Except String (List Paper))
    (summarize : List Paper → Except String Digest)
    (publishers : List (Digest → Option String)) : Option String :=
  match fetchRes with
  | .error e => some ("runner: fetch failed: " ++ e)
  | .ok papers =>
    match summarize papers with
    | .error e => some ("runner: summarize failed: " ++ e)
    | .ok digest =>
      let publishErrors := collectPublishErrors publishers digest
      if publishErrors.length = publishers.length ∧ 0 < publishers.length then
        some ("runner: all publishers failed: " ++ String.intercalate "; " publishErrors)
      else none

/-- The publish loop accumulates exactly the failures, in publisher
order (foldl-append is filterMap). -/
theorem collectPublishErrors_eq_filterMap (publishers : List (Digest → Option String))
    (digest : Digest) :
    collectPublishErrors publishers digest = publishers.filterMap (fun pub => pub digest) := by
  suffices h : ∀ (l : List (Digest → Option String)) (acc : List String),
      l.foldl (fun acc pub =>
        match pub digest with
        | some e => acc ++ [e]
        | none => acc) acc = acc ++ l.filterMap (fun pub => pub digest) by
    simpa using h publishers []
  intro l
  induction l with
  | nil => intro acc; simp
  | cons p rest ih =>
    intro acc
    cases hp : p digest with
    | none => simp [List.foldl_cons, hp, ih]
    | some e => simp [List.foldl_cons, hp, ih]

/-- A filterMap keeps the full length exactly when no element is dropped. -/
theorem length_filterMap_eq_iff {α β : Type} (f : α → Option β) (l : List α) :
    (l.filterMap f).length = l.length ↔ ∀ x ∈ l, f x ≠ none := by
  induction l with
  | nil => simp
  | cons a rest ih =>
    cases ha : f a with
    | none =>
      have hle := List.length_filterMap_le f rest
      simp only [List.filterMap_cons, ha, List.length_cons]
      constructor
      · intro h; omega
      · intro h; exact absurd ha (h a (List.mem_cons_self a rest))
    | some b =>
      simp only [List.filterMap_cons, ha, List.length_cons]
      constructor
      · intro h x hx
        have hlen : (List.filterMap f rest).length = rest.length := by omega
        rcases List.mem_cons.mp hx with rfl | hx
        · simp [ha]
        · exact (ih.mp hlen) x hx
      · intro h
        have := ih.mpr (fun x hx => h x (List.mem_cons_of_mem a hx))
        omega

/-- C2: when fetch and summarize succeed, the run returns no run-level
error exactly when there is no configured publisher or at least one
publisher succeeds; every publisher runs and every failure is recorded,
so the run-level error appears exactly when at least one publisher is
configured and all of them fail. -/
theorem C2_publish_failure_isolation (papers : List Paper)
    (summarize : List Paper → Except String Digest)
    (publishers : List (Digest → Option String)) (digest : Digest)
    (hsum : summarize papers = .ok digest) :
    (runPipeline (.ok papers) summarize publishers = none ↔
      (publishers = [] ∨ ∃ pub ∈ publishers, pub digest = none))
    ∧ collectPublishErrors publishers digest =
        publishers.filterMap (fun pub => pub digest) := by
  refine ⟨?_, collectPublishErrors_eq_filterMap publishers digest⟩
  simp only [runPipeline, hsum, collectPublishErrors_eq_filterMap]
  constructor
  · intro h
    by_cases hall : (publishers.filterMap (fun pub => pub digest)).length = publishers.length
        ∧ 0 < publishers.length
    · simp [hall] at h
    · rcases Classical.em (publishers = []) with rfl | hne
      · exact Or.inl rfl
      · refine Or.inr ?_
        have hlen : 0 < publishers.length := List.length_pos.mpr hne
        have hnoteq : (publishers.filterMap (fun pub => pub digest)).length ≠
            publishers.length := by tauto
        have := (not_iff_not.mpr (length_filterMap_eq_iff (fun pub => pub digest)
          publishers)).mp hnoteq
        push_neg at this
        obtain ⟨pub, hmem, hnone⟩ := this
        exact ⟨pub, hmem, hnone⟩
  · intro h
    rcases h with rfl | ⟨pub, hmem, hnone⟩
    · simp
    · have : (publishers.filterMap (fun pub => pub digest)).length ≠ publishers.length := by
        intro heq
        exact (length_filterMap_eq_iff (fun pub => pub digest) publishers).mp heq pub hmem hnone
      simp [this]

/-- C2 witness: one failing and one succeeding publisher give no run-level
error; the single failure is still recorded. -/
theorem C2_witness :
    runPipeline (.ok []) (fun _ => .ok ⟨"t", 0, [], "o"⟩)
        [fun _ => some "boom", fun _ => none] = none ∧
    collectPublishErrors [fun _ => some "boom", fun _ => none] ⟨"t", 0, [], "o"⟩ =
      ["boom"] := by
  have h := C2_publish_failure_isolation [] (fun _ => .ok ⟨"t", 0, [], "o"⟩)
    [fun _ => some "boom", fun _ => none] ⟨"t", 0, [], "o"⟩ rfl
  refine ⟨h.1.mpr (Or.inr ⟨fun _ => none, by simp, rfl⟩), ?_⟩
  rw [h.2]
  rfl

/-! ## internal/publisher/discord.go -/

/-- discordEmbedFooter. -/
structure DiscordEmbedFooter where
  text : String
deriving DecidableEq

/-- discordEmbedField. -/
structure DiscordEmbedField where
  name : String
  value : String
  inline : Bool
deriving DecidableEq

/-- discordEmbed. -/
structure DiscordEmbed where
  title : String
  url : String
  description : String
  color : Int
  fields : List DiscordEmbedField
  footer : Option DiscordEmbedFooter
  timestamp : String
deriving DecidableEq

/-- embedCharCount: the total Go len (byte count) of title, description,
every field name and value, and the footer text, used for batching. -/
def embedCharCount (e : DiscordEmbed) : Nat :=
  let n := e.title.utf8ByteSize + e.description.utf8ByteSize +
    (e.fields.map (fun f => f.name.utf8ByteSize + f.value.utf8ByteSize)).sum
  match e.footer with
  | some f => n + f.text.utf8ByteSize
  | none => n

/-- The loop of batchEmbeds: `current` is the open batch and
`currentChars` its running weight; before adding an embed, a non-empty
batch that is full (10 embeds) or would overflow 6000 characters is
closed and a fresh batch is started with that embed. -/
def batchLoop : List DiscordEmbed → List DiscordEmbed → Nat → List (List DiscordEmbed)
  | [], current, _ => if current.isEmpty then [] else [current]
  | e :: rest, current, currentChars =>
    let ec := embedCharCount e
    if 0 < current.length ∧ (10 ≤ current.length ∨ 6000 < currentChars + ec) then
      current :: batchLoop rest [e] ec
    else
      batchLoop rest (current ++ [e]) (currentChars + ec)

/-- batchEmbeds from internal/publisher/discord.go. -/
def batchEmbeds (embeds : List DiscordEmbed) : List (List DiscordEmbed) :=
  batchLoop embeds [] 0

/-- The cumulative character weight of a batch. -/
def weightSum (l : List DiscordEmbed) : Nat := (l.map embedCharCount).sum

/-- Unfolding equation for the cons case of batchLoop. -/
theorem batchLoop_cons (e : DiscordEmbed) (rest current : List DiscordEmbed) (w : Nat) :
    batchLoop (e :: rest) current w =
      if 0 < current.length ∧ (10 ≤ current.length ∨ 6000 < w + embedCharCount e) then
        current :: batchLoop rest [e] (embedCharCount e)
      else batchLoop rest (current ++ [e]) (w + embedCharCount e) := rfl

/-- Concatenating the produced batches restores the input sequence. -/
theorem batchLoop_flatten : ∀ (l current : List DiscordEmbed) (w : Nat),
    (batchLoop l current w).flatten = current ++ l := by
  intro l
  induction l with
  | nil =>
    intro current w
    by_cases h : current.isEmpty
    · simp [batchLoop, h, List.isEmpty_iff.mp h]
    · simp [batchLoop, h]
  | cons e rest ih =>
    intro current w
    rw [batchLoop_cons]
    by_cases h : 0 < current.length ∧
        (10 ≤ current.length ∨ 6000 < w + embedCharCount e)
    · rw [if_pos h]
      simp [ih]
    · rw [if_neg h]
      simp [ih]

/-- Every produced batch is non-empty. -/
theorem batchLoop_ne_nil : ∀ (l current : List DiscordEmbed) (w : Nat),
    ∀ b ∈ batchLoop l current w, b ≠ [] := by
  intro l
  induction l with
  | nil =>
    intro current w b hb
    by_cases h : current.isEmpty
    · simp [batchLoop, h] at hb
    · simp [batchLoop, h] at hb
      subst hb
      exact fun hc => h (by simp [hc])
  | cons e rest ih =>
    intro current w b hb
    rw [batchLoop_cons] at hb
    by_cases h : 0 < current.length ∧
        (10 ≤ current.length ∨ 6000 < w + embedCharCount e)
    · rw [if_pos h] at hb
      rcases List.mem_cons.mp hb with rfl | hb
      · exact List.ne_nil_of_length_pos h.1
      · exact ih [e] (embedCharCount e) b hb
    · rw [if_neg h] at hb
      exact ih (current ++ [e]) (w + embedCharCount e) b hb

/-- Every produced batch holds at most 10 embeds. -/
theorem batchLoop_count_le : ∀ (l current : List DiscordEmbed) (w : Nat),
    current.length ≤ 10 → ∀ b ∈ batchLoop l current w, b.length ≤ 10 := by
  intro l
  induction l with
  | nil =>
    intro current w hc b hb
    by_cases h : current.isEmpty
    · simp [batchLoop, h] at hb
    · simp [batchLoop, h] at hb
      subst hb; exact hc
  | cons e rest ih =>
    intro current w hc b hb
    rw [batchLoop_cons] at hb
    by_cases h : 0 < current.length ∧
        (10 ≤ current.length ∨ 6000 < w + embedCharCount e)
    · rw [if_pos h] at hb
      rcases List.mem_cons.mp hb with rfl | hb
      · exact hc
      · exact ih [e] (embedCharCount e) (by simp) b hb
    · rw [if_neg h] at hb
      push_neg at h
      have hlen : (current ++ [e]).length ≤ 10 := by
        rcases Nat.eq_zero_or_pos current.length with h0 | hpos
        · simp [List.length_append, h0]
        · have h10 := (h hpos).1
          simp only [List.length_append, List.length_singleton]
          omega
      exact ih (current ++ [e]) (w + embedCharCount e) hlen b hb

/-- Every produced batch holding two or more embeds is within the 6000
character cap. -/
theorem batchLoop_weight_le : ∀ (l current : List DiscordEmbed) (w : Nat),
    w = weightSum current → (2 ≤ current.length → w ≤ 6000) →
    ∀ b ∈ batchLoop l current w, 2 ≤ b.length → weightSum b ≤ 6000 := by
  intro l
  induction l with
  | nil =>
    intro current w hw hcap b hb h2
    by_cases h : current.isEmpty
    · simp [batchLoop, h] at hb
    · simp [batchLoop, h] at hb
      subst hb
      exact hw ▸ hcap h2
  | cons e rest ih =>
    intro current w hw hcap b hb h2
    rw [batchLoop_cons] at hb
    by_cases h : 0 < current.length ∧
        (10 ≤ current.length ∨ 6000 < w + embedCharCount e)
    · rw [if_pos h] at hb
      rcases List.mem_cons.mp hb with rfl | hb
      · exact hw ▸ hcap h2
      · exact ih [e] (embedCharCount e) (by simp [weightSum]) (by simp) b hb h2
    · rw [if_neg h] at hb
      push_neg at h
      refine ih (current ++ [e]) (w + embedCharCount e) ?_ ?_ b hb h2
      · simp [weightSum, hw, List.map_append]
      · intro hlen
        rcases Nat.eq_zero_or_pos current.length with h0 | hpos
        · simp only [List.length_append, List.length_singleton, h0] at hlen
          omega
        · exact (h hpos).2

/-- An embed with every slot empty; weight 0. -/
def emptyEmbed : DiscordEmbed := ⟨"", "", "", 0, [], none, ""⟩

/-- An embed of weight 1 (one ASCII character of title). -/
def unitEmbed : DiscordEmbed := { emptyEmbed with title := "a" }

/-- An embed of weight 2000 (a 2000-character ASCII description). -/
def kiloEmbed : DiscordEmbed := { emptyEmbed with description := String.mk (List.replicate 2000 'a') }

/-- Byte size of a replicated ASCII character string. -/
theorem utf8Size_go_replicate (n : Nat) :
    String.utf8ByteSize.go (List.replicate n 'a') = n := by
  induction n with
  | zero => rfl
  | succ k ih =>
    have h1 : Char.utf8Size 'a' = 1 := by decide
    simp [List.replicate_succ, String.utf8ByteSize.go] at ih ⊢
    omega

/-- The weight of the 2000-character embed. -/
theorem embedCharCount_kiloEmbed : embedCharCount kiloEmbed = 2000 := by
  have h : (String.mk (List.replicate 2000 'a')).utf8ByteSize = 2000 :=
    utf8Size_go_replicate 2000
  have h0 : String.utf8ByteSize "" = 0 := rfl
  simp only [embedCharCount, kiloEmbed, emptyEmbed, h, h0, List.map_nil, List.sum_nil]
  omega

set_option maxRecDepth 10000 in
/-- C3: batchEmbeds partitions its input in order (flattening the batches
restores the input, so nothing is dropped, split or reordered), each batch
has at most 10 embeds, every batch of two or more embeds weighs at most
6000 characters, an embed heavier than 6000 sits alone in its batch; 12
weight-1 embeds batch as [10, 2] and 4 weight-2000 embeds batch as
[3, 1]. -/
theorem C3_batchEmbeds_bounds (embeds : List DiscordEmbed) :
    (batchEmbeds embeds).flatten = embeds
    ∧ (∀ b ∈ batchEmbeds embeds, b.length ≤ 10)
    ∧ (∀ b ∈ batchEmbeds embeds, 2 ≤ b.length → weightSum b ≤ 6000)
    ∧ (∀ b ∈ batchEmbeds embeds, ∀ e ∈ b, 6000 < embedCharCount e → b.length = 1)
    ∧ (batchEmbeds (List.replicate 12 unitEmbed)).map List.length = [10, 2]
    ∧ (batchEmbeds (List.replicate 4 kiloEmbed)).map List.length = [3, 1] := by
  refine ⟨by simpa using batchLoop_flatten embeds [] 0,
    fun b hb => batchLoop_count_le embeds [] 0 (by simp) b hb,
    fun b hb => batchLoop_weight_le embeds [] 0 (by simp [weightSum]) (by simp) b hb,
    ?_, by decide, ?_⟩
  · intro b hb e he hheavy
    by_contra hne
    have h1 : b ≠ [] := batchLoop_ne_nil embeds [] 0 b hb
    have h2 : 2 ≤ b.length := by
      have := List.length_pos.mpr h1
      omega
    have hcap := batchLoop_weight_le embeds [] 0 (by simp [weightSum]) (by simp) b hb h2
    have hmem : embedCharCount e ≤ weightSum b :=
      List.single_le_sum (fun x _ => Nat.zero_le _) _ (List.mem_map_of_mem embedCharCount he)
    omega
  · have hk := embedCharCount_kiloEmbed
    have h4 : List.replicate 4 kiloEmbed = [kiloEmbed, kiloEmbed, kiloEmbed, kiloEmbed] := rfl
    rw [h4]
    simp only [batchEmbeds, batchLoop_cons, batchLoop, hk]
    norm_num

/-- C3 witness: on a single weight-1 embed the partition is one batch of
one embed, within both caps. -/
theorem C3_witness :
    (batchEmbeds [unitEmbed]).flatten = [unitEmbed] ∧
    ∀ b ∈ batchEmbeds [unitEmbed], b.length ≤ 10 := by
  obtain ⟨hflat, hcount, -, -, -, -⟩ := C3_batchEmbeds_bounds [unitEmbed]
  exact ⟨hflat, hcount⟩

/-! ## truncate (internal/publisher/discord.go)

Go strings are byte sequences and truncate slices them by byte index, so
here a string is modeled as its list of bytes. The sentence-ending bytes
are those of ".", "!" and "?"; the appended ellipsis U+2026 is three UTF-8
bytes. -/

/-- The byte values of the sentence-ending characters ".!?". -/
def sentenceEnders : List Nat := [46, 33, 63]

/-- The UTF-8 bytes of the ellipsis character appended on a hard cut. -/
def ellipsisUTF8 : List Nat := [226, 128, 166]

/-- Go strings.LastIndexAny over bytes: the index of the last byte drawn
from `chars`, or -1 when there is none. -/
def lastIndexAny : List Nat → List Nat → Int
  | [], _ => -1
  | b :: rest, chars =>
    let r := lastIndexAny rest chars
    if 0 ≤ r then r + 1
    else if chars.contains b then 0 else -1

/-- truncate from internal/publisher/discord.go: a string within the cap
is returned unchanged; otherwise the first max - 1 bytes are kept and
either cut after the last sentence-ending byte when that sits past the
midpoint of the cap, or returned whole with an ellipsis appended. -/
def truncate (s : List Nat) (max : Nat) : List Nat :=
  if s.length ≤ max then s
  else
    let cut := s.take (max - 1)
    let idx := lastIndexAny cut sentenceEnders
    if (max : Int) / 2 < idx then cut.take (idx.toNat + 1)
    else cut ++ ellipsisUTF8

/-- C8 counterexample: six bytes of "a" under cap 5 hard-cut to 4 bytes
plus the three-byte ellipsis, 7 bytes in total, exceeding the cap. -/
theorem C8_counterexample :
    (truncate (List.replicate 6 97) 5).length = 7 ∧
    ¬ (truncate (List.replicate 6 97) 5).length ≤ 5 := by decide

/-- C8 amended: a string within the cap is returned unchanged; an
over-cap string is cut at the last sentence-ending byte of its first
max - 1 bytes when that index passes the midpoint of the cap, and the
result then stays within the cap; with no such byte there, the first
max - 1 bytes are kept and a three-byte ellipsis is appended, so the
result is exactly max + 2 bytes, exceeding the cap by two. -/
theorem C8_truncate_amended (s : List Nat) (max : Nat) (hmax : 1 ≤ max) :
    (s.length ≤ max → truncate s max = s)
    ∧ (max < s.length →
        ((max : Int) / 2 < lastIndexAny (s.take (max - 1)) sentenceEnders →
          (truncate s max).length ≤ max)
        ∧ (lastIndexAny (s.take (max - 1)) sentenceEnders ≤ (max : Int) / 2 →
          truncate s max = s.take (max - 1) ++ ellipsisUTF8
          ∧ (truncate s max).length = max + 2)) := by
  refine ⟨fun h => by simp [truncate, h], fun hgt => ⟨?_, ?_⟩⟩
  · intro hidx
    have hnot : ¬ s.length ≤ max := by omega
    simp only [truncate, hnot, if_false, if_pos hidx, ite_false]
    simp only [List.length_take]
    omega
  · intro hle
    have hnot : ¬ s.length ≤ max := by omega
    have hno : ¬ (max : Int) / 2 < lastIndexAny (s.take (max - 1)) sentenceEnders :=
      not_lt.mpr hle
    constructor
    · simp [truncate, hnot, hno]
    · simp only [truncate, hnot, if_false, hno, ite_false, List.length_append,
        List.length_take, ellipsisUTF8, List.length_cons, List.length_nil]
      omega

/-- C8 witness: the amended statement evaluated on six bytes of "a" under
cap 5: the hard-cut branch applies and yields 7 bytes. -/
theorem C8_witness :
    truncate (List.replicate 6 97) 5 = (List.replicate 6 97).take 4 ++ ellipsisUTF8 ∧
    (truncate (List.replicate 6 97) 5).length = 7 := by
  have h := ((C8_truncate_amended (List.replicate 6 97) 5 (by decide)).2 (by decide)).2
    (by decide)
  exact ⟨h.1, by omega⟩

/-! ## internal/summarizer/anthropic.go, parseResponse index remapping -/

/-- summaryJSON: one parsed digest entry; index is a Go int, 1-based. -/
structure SummaryJSON where
  index : Int
  summary : String
  key_points : List String
deriving DecidableEq

/-- A zero-valued Paper standing for the default of a guarded lookup. -/
def defaultPaper : Paper := ⟨"", [], "", "", 0, ""⟩

/-- The remapping loop of parseResponse: each entry shifts its 1-based
index to 0-based; out-of-range positions are skipped without error;
in-range positions emit one PaperSummary copying the paper at that
position. -/
def parseSummaries (papers : List Paper) : List SummaryJSON → List PaperSummary
  | [] => []
  | sj :: rest =>
    let idx : Int := sj.index - 1
    if idx < 0 ∨ (papers.length : Int) ≤ idx then parseSummaries papers rest
    else ⟨papers.getD idx.toNat defaultPaper, sj.summary, sj.key_points⟩ ::
      parseSummaries papers rest

/-- Unfolding equation for the cons case of parseSummaries. -/
theorem parseSummaries_cons (papers : List Paper) (sj : SummaryJSON)
    (rest : List SummaryJSON) :
    parseSummaries papers (sj :: rest) =
      if (sj.index - 1 : Int) < 0 ∨ (papers.length : Int) ≤ sj.index - 1 then
        parseSummaries papers rest
      else ⟨papers.getD (sj.index - 1).toNat defaultPaper, sj.summary, sj.key_points⟩ ::
        parseSummaries papers rest := rfl

/-- Every produced summary copies a paper of the input list. -/
theorem parseSummaries_paper_mem (papers : List Paper) :
    ∀ entries, ∀ ps ∈ parseSummaries papers entries, ps.paper ∈ papers := by
  intro entries
  induction entries with
  | nil => simp [parseSummaries]
  | cons sj rest ih =>
    intro ps hps
    rw [parseSummaries_cons] at hps
    by_cases h : (sj.index - 1 : Int) < 0 ∨ (papers.length : Int) ≤ sj.index - 1
    · rw [if_pos h] at hps
      exact ih ps hps
    · rw [if_neg h] at hps
      rcases List.mem_cons.mp hps with rfl | hps
      · push_neg at h
        have hlt : (sj.index - 1).toNat < papers.length := by omega
        simp only [List.getD_eq_getElem papers defaultPaper hlt]
        exact List.getElem_mem hlt
      · exact ih ps hps

/-- C4: a digest entry with 1-based index i ≤ 0 or i > P contributes no
PaperSummary and raises no error; an entry with 1 ≤ i ≤ P contributes
exactly one PaperSummary copying item i - 1 of the same paper list, so
index 1 maps to the first item; every produced summary copies an item of
the input list. -/
theorem C4_parseResponse_index_remap (papers : List Paper) (sj : SummaryJSON)
    (entries : List SummaryJSON) :
    (sj.index ≤ 0 ∨ (papers.length : Int) < sj.index →
      parseSummaries papers (sj :: entries) = parseSummaries papers entries)
    ∧ (1 ≤ sj.index → sj.index ≤ (papers.length : Int) →
      ∃ h : (sj.index - 1).toNat < papers.length,
        parseSummaries papers (sj :: entries) =
          ⟨papers.get ⟨(sj.index - 1).toNat, h⟩, sj.summary, sj.key_points⟩ ::
            parseSummaries papers entries)
    ∧ (sj.index = 1 → 0 < papers.length →
      (parseSummaries papers (sj :: entries)).head? =
        some ⟨papers.getD 0 defaultPaper, sj.summary, sj.key_points⟩)
    ∧ (∀ ps ∈ parseSummaries papers (sj :: entries), ps.paper ∈ papers) := by
  refine ⟨?_, ?_, ?_, parseSummaries_paper_mem papers (sj :: entries)⟩
  · intro h
    rw [parseSummaries_cons, if_pos (by omega)]
  · intro h1 h2
    have hlt : (sj.index - 1).toNat < papers.length := by omega
    refine ⟨hlt, ?_⟩
    rw [parseSummaries_cons, if_neg (by omega),
      List.getD_eq_getElem papers defaultPaper hlt, List.get_eq_getElem]
  · intro h1 hpos
    rw [parseSummaries_cons, if_neg (by omega)]
    simp [h1]

/-- C4 witness: on a two-paper list, index 1 yields exactly the summary
of the first paper. -/
theorem C4_witness :
    parseSummaries [⟨"A", [], "", "", 0, ""⟩, ⟨"B", [], "", "", 0, ""⟩]
        [⟨1, "s", ["k"]⟩] = [⟨⟨"A", [], "", "", 0, ""⟩, "s", ["k"]⟩] := by
  obtain ⟨-, h2, -, -⟩ := C4_parseResponse_index_remap
    [⟨"A", [], "", "", 0, ""⟩, ⟨"B", [], "", "", 0, ""⟩] ⟨1, "s", ["k"]⟩ []
  obtain ⟨h, heq⟩ := h2 (by decide) (by decide)
  rw [heq]
  rfl

/-! ## internal/fetcher/arxiv.go -/

/-- arxivLink: one typed link of a feed entry. -/
structure ArxivLink where
  href : String
  type : String
  rel : String
deriving DecidableEq

/-- arxivEntry, with the Published timestamp already parsed to an integer
instant and the category list reduced to its term strings. -/
structure ArxivEntry where
  title : String
  summary : String
  authors : List String
  links : List ArxivLink
  published : Int
  category : List String
deriving DecidableEq

/-- One step of the canonical-URL selection loop: assign on every
rel=alternate link, and on a type=text/html link when nothing has been
assigned yet. -/
def pickStep (paperURL : String) (link : ArxivLink) : String :=
  if link.rel == "alternate" || (link.type == "text/html" && paperURL == "") then link.href
  else paperURL

/-- The canonical-URL selection of fetchInternal and
fetchMultipleInternal: run the loop over the links, then fall back to the
first link when nothing was assigned; no links leave the URL empty. -/
def pickURL (links : List ArxivLink) : String :=
  let paperURL := links.foldl pickStep ""
  if paperURL == "" && !links.isEmpty then (links.headD ⟨"", "", ""⟩).href
  else paperURL

/-- Conversion of one feed entry into a Paper (the per-entry body of the
fetch loops). -/
def entryToPaper (e : ArxivEntry) : Paper :=
  { title := e.title.trim
    authors := e.authors.map String.trim
    abstract := e.summary.trim
    url := pickURL e.links
    published := e.published
    category := e.category.headD "" }

/-- Papers ordered by publication timestamp, newest first (the sort.Slice
comparison uses Published.After, so the sorted order is non-increasing
timestamps). -/
def byPublishedDesc (a b : Paper) : Prop := b.published ≤ a.published

instance : DecidableRel byPublishedDesc := fun a b =>
  inferInstanceAs (Decidable (b.published ≤ a.published))

instance : IsTotal Paper byPublishedDesc := ⟨fun a b => le_total b.published a.published⟩

instance : IsTrans Paper byPublishedDesc := ⟨fun _ _ _ h1 h2 => le_trans h2 h1⟩

/-- strings.ReplaceAll(topic, quote, empty): every quote character of the
topic is removed. -/
def stripQuotes (t : String) : String := String.mk (t.data.filter (fun c => c ≠ '"'))

/-- The combined OR query of fetchMultipleInternal: each topic is
independently quoted (with its own quote characters stripped) and the
parts are joined by " OR ". -/
def multiSearchQuery (topics : List String) : String :=
  String.intercalate " OR " (topics.map (fun t => "all:\"" ++ stripQuotes t ++ "\""))

/-- The query parameters of the single upstream request issued by
fetchMultipleInternal. -/
structure ArxivRequest where
  searchQuery : String
  start : Nat
  maxResultsParam : Nat
  sortBy : String
  sortOrder : String
deriving DecidableEq

/-- The request fetchMultipleInternal builds: the combined query with
twice the configured result bound. -/
def multiRequest (topics : List String) (maxResults : Nat) : ArxivRequest :=
  ⟨multiSearchQuery topics, 0, maxResults * 2, "submittedDate", "descending"⟩

/-- The local post-processing of fetchMultipleInternal on the single
response: convert the entries, sort by publication timestamp descending,
and truncate to maxResults. Go sort.Slice leaves the order of equal
timestamps unspecified; it is modeled by a stable comparison sort. -/
def processMultiFeed (entries : List ArxivEntry) (maxResults : Nat) : List Paper :=
  let papers := entries.map entryToPaper
  let sorted := List.insertionSort byPublishedDesc papers
  sorted.take maxResults

/-- FetchMultiple dispatch: zero topics yield an empty list without a
request; one topic delegates to the single-topic path (which applies no
local sort or truncation); two or more topics take the multi-topic path.
The response feed is an oracle argument. -/
def fetchMultipleModel (topics : List String) (maxResults : Nat)
    (entries : List ArxivEntry) : List Paper :=
  if topics.length = 0 then []
  else if topics.length = 1 then entries.map entryToPaper
  else processMultiFeed entries maxResults

/-- C5: with two or more topics the merged result holds at most
maxResults papers and is sorted by publication timestamp descending; it
arises locally by sort-then-truncate from the one response, and the
single request asks for twice the configured bound under the combined OR
query in which each topic is quoted independently. -/
theorem C5_multi_topic_merge (topics : List String) (maxResults : Nat)
    (entries : List ArxivEntry) (h2 : 2 ≤ topics.length) :
    (fetchMultipleModel topics maxResults entries).length ≤ maxResults
    ∧ List.Sorted byPublishedDesc (fetchMultipleModel topics maxResults entries)
    ∧ fetchMultipleModel topics maxResults entries =
        (List.insertionSort byPublishedDesc (entries.map entryToPaper)).take maxResults
    ∧ (multiRequest topics maxResults).maxResultsParam = 2 * maxResults
    ∧ (multiRequest topics maxResults).searchQuery =
        String.intercalate " OR " (topics.map (fun t => "all:\"" ++ stripQuotes t ++ "\"")) := by
  have h0 : topics.length ≠ 0 := by omega
  have h1 : topics.length ≠ 1 := by omega
  have hfm : fetchMultipleModel topics maxResults entries =
      (List.insertionSort byPublishedDesc (entries.map entryToPaper)).take maxResults := by
    simp [fetchMultipleModel, h0, h1, processMultiFeed]
  refine ⟨?_, ?_, hfm, by simp [multiRequest, Nat.mul_comm], rfl⟩
  · rw [hfm]
    exact List.length_take_le maxResults _
  · rw [hfm]
    exact List.Pairwise.sublist (List.take_sublist maxResults _)
      (List.sorted_insertionSort byPublishedDesc _)

/-- C5 witness: two topics, bound 1, a two-entry response: the merged
result is a single paper and the request carries the quoted OR query with
doubled bound. -/
theorem C5_witness :
    (fetchMultipleModel ["a", "b"] 1
      [⟨"", "", [], [], 1, []⟩, ⟨"", "", [], [], 5, []⟩]).length ≤ 1 ∧
    (multiRequest ["a", "b"] 1).maxResultsParam = 2 ∧
    (multiRequest ["a", "b"] 1).searchQuery = "all:\"a\" OR all:\"b\"" := by
  obtain ⟨hlen, -, -, hmr, hq⟩ := C5_multi_topic_merge ["a", "b"] 1
    [⟨"", "", [], [], 1, []⟩, ⟨"", "", [], [], 5, []⟩] (by decide)
  refine ⟨hlen, hmr, ?_⟩
  rw [hq]
  decide

/-- The last rel=alternate link of an entry, if any. -/
def lastAlternate (links : List ArxivLink) : Option ArxivLink :=
  (links.filter (fun l => l.rel == "alternate")).getLast?

/-- The first type=text/html link of an entry, if any. -/
def firstHTML (links : List ArxivLink) : Option ArxivLink :=
  links.find? (fun l => l.type == "text/html")

/-- With no rel=alternate link in sight, a non-empty assignment
survives the loop untouched. -/
theorem foldl_pickStep_keep (links : List ArxivLink) :
    ∀ acc, (∀ l ∈ links, l.rel ≠ "alternate") → acc ≠ "" →
    links.foldl pickStep acc = acc := by
  induction links with
  | nil => intro acc _ _; rfl
  | cons l rest ih =>
    intro acc hno hacc
    have h1 : (l.rel == "alternate") = false := by
      simpa using hno l (List.mem_cons_self l rest)
    have h2 : (acc == "") = false := by simpa using hacc
    have hstep : pickStep acc l = acc := by simp [pickStep, h1, h2]
    rw [List.foldl_cons, hstep]
    exact ih acc (fun x hx => hno x (List.mem_cons_of_mem l hx)) hacc

/-- When an alternate link exists (and hrefs are non-empty), the loop
ends on the href of the last alternate link, whatever it starts from. -/
theorem foldl_pickStep_last_alternate : ∀ (links : List ArxivLink),
    (∀ l ∈ links, l.href ≠ "") →
    ∀ la, lastAlternate links = some la → ∀ acc, links.foldl pickStep acc = la.href := by
  intro links
  induction links with
  | nil => intro _ la hla; simp [lastAlternate] at hla
  | cons l rest ih =>
    intro hne la hla acc
    rw [List.foldl_cons]
    by_cases hrest : rest.filter (fun x => x.rel == "alternate") = []
    · have hnorest : ∀ x ∈ rest, x.rel ≠ "alternate" := by
        intro x hx hxr
        exact List.filter_eq_nil_iff.mp hrest x hx (by simp [hxr])
      by_cases hl : (l.rel == "alternate") = true
      · have hlast : lastAlternate (l :: rest) = some l := by
          simp [lastAlternate, List.filter_cons, hl, hrest]
        rw [hlast] at hla
        injection hla with hla
        subst hla
        have hstep : pickStep acc l = l.href := by simp [pickStep, hl]
        rw [hstep]
        exact foldl_pickStep_keep rest l.href hnorest (hne l (List.mem_cons_self l rest))
      · have hlast : lastAlternate (l :: rest) = none := by
          simp [lastAlternate, List.filter_cons, hl, hrest]
        rw [hlast] at hla
        cases hla
    · obtain ⟨y, ys, hys⟩ := List.exists_cons_of_ne_nil hrest
      have hrl : lastAlternate (l :: rest) = lastAlternate rest := by
        simp only [lastAlternate, List.filter_cons]
        by_cases hl : (l.rel == "alternate") = true
        · rw [if_pos hl, hys, List.getLast?_cons_cons]
        · rw [if_neg hl]
      rw [hrl] at hla
      exact ih (fun x hx => hne x (List.mem_cons_of_mem l hx)) la hla (pickStep acc l)

/-- With no alternate link at all, the loop starting empty ends on the
href of the first text/html link when one exists. -/
theorem foldl_pickStep_firstHTML : ∀ (links : List ArxivLink),
    (∀ l ∈ links, l.href ≠ "") → (∀ l ∈ links, l.rel ≠ "alternate") →
    ∀ lh, firstHTML links = some lh → links.foldl pickStep "" = lh.href := by
  intro links
  induction links with
  | nil => intro _ _ lh hlh; simp [firstHTML] at hlh
  | cons l rest ih =>
    intro hne hno lh hlh
    have h1 : (l.rel == "alternate") = false := by
      simpa using hno l (List.mem_cons_self l rest)
    rw [List.foldl_cons]
    by_cases hl : (l.type == "text/html") = true
    · have hfind : firstHTML (l :: rest) = some l := by
        simp only [firstHTML]
        exact List.find?_cons_of_pos rest hl
      rw [hfind] at hlh
      injection hlh with h
      subst h
      have hstep : pickStep "" l = l.href := by simp [pickStep, h1, hl]
      rw [hstep]
      exact foldl_pickStep_keep rest l.href
        (fun x hx => hno x (List.mem_cons_of_mem l hx))
        (hne l (List.mem_cons_self l rest))
    · have hstep : pickStep "" l = "" := by simp [pickStep, h1, hl]
      have hfind : firstHTML (l :: rest) = firstHTML rest := by
        simp only [firstHTML]
        exact List.find?_cons_of_neg rest hl
      rw [hfind] at hlh
      rw [hstep]
      exact ih (fun x hx => hne x (List.mem_cons_of_mem l hx))
        (fun x hx => hno x (List.mem_cons_of_mem l hx)) lh hlh

/-- With neither an alternate link nor a text/html link, the loop
starting empty ends empty. -/
theorem foldl_pickStep_empty : ∀ (links : List ArxivLink),
    (∀ l ∈ links, l.rel ≠ "alternate") → (∀ l ∈ links, l.type ≠ "text/html") →
    links.foldl pickStep "" = "" := by
  intro links
  induction links with
  | nil => intro _ _; rfl
  | cons l rest ih =>
    intro hno hnh
    have h1 : (l.rel == "alternate") = false := by
      simpa using hno l (List.mem_cons_self l rest)
    have h2 : (l.type == "text/html") = false := by
      simpa using hnh l (List.mem_cons_self l rest)
    have hstep : pickStep "" l = "" := by simp [pickStep, h1, h2]
    rw [List.foldl_cons, hstep]
    exact ih (fun x hx => hno x (List.mem_cons_of_mem l hx))
      (fun x hx => hnh x (List.mem_cons_of_mem l hx))

/-- Two links both marked rel=alternate, with distinct targets. -/
def altLink1 : ArxivLink := ⟨"https://example.org/first", "", "alternate"⟩

/-- The second alternate link of the counterexample entry. -/
def altLink2 : ArxivLink := ⟨"https://example.org/second", "", "alternate"⟩

/-- C9 counterexample: on an entry whose first and second links are both
marked rel=alternate, the assigned canonical URL is the href of the
second (last) alternate link, not that of the first as claimed. -/
theorem C9_counterexample :
    altLink1.rel = "alternate" ∧
    pickURL [altLink1, altLink2] = altLink2.href ∧
    pickURL [altLink1, altLink2] ≠ altLink1.href := by decide

/-- C9 amended: assuming every link of the entry carries a non-empty
href, the canonical URL is the href of the LAST link marked
rel=alternate when one exists; with no alternate link it is the href of
the first link of type text/html when one exists; with neither it falls
back to the href of the first link; and an entry with no links yields
the empty URL. -/
theorem C9_pickURL_amended (links : List ArxivLink)
    (hne : ∀ l ∈ links, l.href ≠ "") :
    (∀ la, lastAlternate links = some la → pickURL links = la.href)
    ∧ (lastAlternate links = none →
        ∀ lh, firstHTML links = some lh → pickURL links = lh.href)
    ∧ (lastAlternate links = none → firstHTML links = none →
        pickURL links = (links.headD ⟨"", "", ""⟩).href)
    ∧ pickURL [] = "" := by
  refine ⟨?_, ?_, ?_, rfl⟩
  · intro la hla
    have hfold := foldl_pickStep_last_alternate links hne la hla ""
    have hmem : la ∈ links :=
      List.mem_of_mem_filter (List.mem_of_mem_getLast? hla)
    have hhref : (la.href == "") = false := by simpa using hne la hmem
    simp only [pickURL, hfold]
    simp [hhref]
  · intro hnone lh hlh
    have hno : ∀ l ∈ links, l.rel ≠ "alternate" := by
      intro x hx hxr
      exact List.filter_eq_nil_iff.mp (List.getLast?_eq_none_iff.mp hnone) x hx
        (by simp [hxr])
    have hfold := foldl_pickStep_firstHTML links hne hno lh hlh
    have hmem : lh ∈ links := List.mem_of_find?_eq_some hlh
    have hhref : (lh.href == "") = false := by simpa using hne lh hmem
    simp only [pickURL, hfold]
    simp [hhref]
  · intro hnone hhtml
    have hno : ∀ l ∈ links, l.rel ≠ "alternate" := by
      intro x hx hxr
      exact List.filter_eq_nil_iff.mp (List.getLast?_eq_none_iff.mp hnone) x hx
        (by simp [hxr])
    have hnh : ∀ l ∈ links, l.type ≠ "text/html" := by
      intro x hx hxr
      exact List.find?_eq_none.mp hhtml x hx (by simp [hxr])
    have hfold := foldl_pickStep_empty links hno hnh
    cases links with
    | nil => rfl
    | cons l rest =>
      simp only [pickURL, hfold]
      simp

/-- C9 witness: the amended statement evaluated on the two-alternate
entry picks the last alternate link. -/
theorem C9_witness :
    pickURL [altLink1, altLink2] = "https://example.org/second" := by
  exact (C9_pickURL_amended [altLink1, altLink2] (by decide)).1 altLink2 (by decide)

end DailyFeed
